import Mathlib

/-!
Verification of the asynchronous TCP connection/server core of the Util
library (src/Network/NetworkTCP.cpp), POSIX backend.  The data model and the
operations are shallowly embedded: byte queues become lists of chunks
(lists of byte values), the stateful worker/caller interactions become
explicit state passing, and the cross-thread state machine of claim C5/C6
becomes a labelled step relation on a small system state.

Bytes are the values of C++ uint8_t and are modelled as Nat; only equality
comparisons on bytes occur in the embedded code, so no modular arithmetic
is needed.
-/

namespace NetworkTCP

/-- Byte value of a C++ uint8_t. -/
abbrev Byte := Nat

/-- Chunk of bytes: one element of inQueue or outQueue
(std::vector<uint8_t>). -/
abbrev Chunk := List Byte

/-- Modelled from the spec: the CONNECTION_STATE enumeration declared in the
missing header NetworkTCP.h; the spec gives state ∈ \x7bOPEN, CLOSING, CLOSED\x7d. -/
inductive CState where
  | OPEN : CState
  | CLOSING : CState
  | CLOSED : CState
deriving DecidableEq

/-- Modelled from the spec: isOpen() from the missing header NetworkTCP.h is
an authoritative state query under the state lock, true exactly in state
OPEN. -/
def isOpenState (s : CState) : Bool := s = CState.OPEN

/-- State guarded by inQueueMutex: the deque<vector<uint8_t>> inQueue and
the counter inQueueDataSize of TCPConnection. -/
structure InQueueState where
  inQueue : List Chunk
  inQueueDataSize : Nat
deriving DecidableEq

/-- Total number of bytes stored in a chunk queue. -/
def totalLen (q : List Chunk) : Nat := (q.map List.length).sum

/-- Spec invariant: inQueueDataSize equals the total length of bytes
currently stored in inQueue. -/
def invInQueue (s : InQueueState) : Prop :=
  s.inQueueDataSize = totalLen s.inQueue

instance (s : InQueueState) : Decidable (invInQueue s) := by
  unfold invInQueue; infer_instance

/-- Walk of the for-loop inside TCPConnection::extractDataFromInQueue
(NetworkTCP.cpp lines 312-324): iterate over the chunks while remaining
bytes are wanted; a chunk whose size is at most the remaining count is
copied whole and counted in packetsToRemove; otherwise the first remaining
bytes are copied and the chunk is replaced in place by its suffix.
Returns (data accumulated, packetsToRemove, queue after in-place update). -/
def extractWalk : Nat → List Chunk → Chunk × Nat × List Chunk
  | _, [] => ([], 0, [])
  | 0, q => ([], 0, q)
  | r, c :: rest =>
    if c.length ≤ r then
      let w := extractWalk (r - c.length) rest
      (c ++ w.1, w.2.1 + 1, c :: w.2.2)
    else
      (c.take r, 0, c.drop r :: rest)

/-- TCPConnection::extractDataFromInQueue (NetworkTCP.cpp lines 304-335):
guard returning empty when inQueueDataSize < numBytes or numBytes == 0;
then the walk, then removal of the packetsToRemove consumed chunks (clear
when all chunks are consumed, else pop_front repeatedly), and the counter
decreases by numBytes.  Returns (data, new queue state). -/
def extractDataFromInQueue (numBytes : Nat) (s : InQueueState) :
    Chunk × InQueueState :=
  if s.inQueueDataSize < numBytes ∨ numBytes = 0 then ([], s)
  else
    let w := extractWalk numBytes s.inQueue
    let q := if w.2.1 = w.2.2.length then [] else w.2.2.drop w.2.1
    (w.1, ⟨q, s.inQueueDataSize - numBytes⟩)

/-- TCPConnection::receiveData(size_t) (NetworkTCP.cpp lines 348-355): if
inQueueDataSize >= numBytes, extract under the lock; else return empty. -/
def receiveData (numBytes : Nat) (s : InQueueState) : Chunk × InQueueState :=
  if s.inQueueDataSize ≥ numBytes then extractDataFromInQueue numBytes s
  else ([], s)

/-- Inner byte loop of the delimiter scan in TCPConnection::receiveString
(NetworkTCP.cpp lines 367-375): count the bytes of one chunk preceding the
first occurrence of the delimiter; the flag records whether it was found. -/
def scanChunk (d : Byte) : Chunk → Nat × Bool
  | [] => (0, false)
  | b :: bs =>
    if b = d then (0, true)
    else
      let w := scanChunk d bs
      (w.1 + 1, w.2)

/-- Outer chunk loop of the delimiter scan in TCPConnection::receiveString:
accumulate the position over chunks until the delimiter is found. -/
def findDelim (d : Byte) : List Chunk → Nat × Bool
  | [] => (0, false)
  | c :: rest =>
    let w := scanChunk d c
    if w.2 then (w.1, true)
    else
      let w2 := findDelim d rest
      (w.1 + w2.1, w2.2)

/-- TCPConnection::receiveString (NetworkTCP.cpp lines 358-386): empty when
inQueueDataSize == 0 (unlocked hint); else scan for the delimiter and, when
found at position pos, extract pos+1 bytes and return them as the string
(the string is modelled by its byte list; the C++ assigns only a non-empty
extraction, an empty one leaves the empty string). -/
def receiveString (d : Byte) (s : InQueueState) : Chunk × InQueueState :=
  if s.inQueueDataSize = 0 then ([], s)
  else
    let f := findDelim d s.inQueue
    if f.2 then
      let e := extractDataFromInQueue (f.1 + 1) s
      (if e.1.isEmpty then [] else e.1, e.2)
    else ([], s)

/-- Inbound append performed by the worker (NetworkTCP.cpp lines 276-280):
emplace_back of the freshly received chunk and increase of
inQueueDataSize by its length. -/
def appendChunk (c : Chunk) (s : InQueueState) : InQueueState :=
  ⟨s.inQueue ++ [c], s.inQueueDataSize + c.length⟩

/-- Chunk-level extraction as the spec words it for the refinement part of
C3: a chunk fully consumed is removed, a chunk partially consumed is
replaced by its suffix. -/
def chunkDropSpec : Nat → List Chunk → List Chunk
  | _, [] => []
  | 0, q => q
  | r, c :: rest =>
    if c.length ≤ r then chunkDropSpec (r - c.length) rest
    else c.drop r :: rest

/-- Boolean predicate used to phrase first-occurrence positions: the byte
differs from the delimiter. -/
def notDelim (d b : Byte) : Bool := decide (b ≠ d)

/-- TCPConnection::sendData (NetworkTCP.cpp lines 127-134): if the
connection is not open return false; otherwise append the payload as one
chunk at the back of outQueue under its lock and return true. -/
def sendData (st : CState) (outQueue : List Chunk) (data : Chunk) :
    Bool × List Chunk :=
  if isOpenState st then (true, outQueue ++ [data]) else (false, outQueue)

/-- TCPConnection::sendString (NetworkTCP.cpp lines 136-138): build the
vector of the raw bytes of the string and call sendData; strings are
modelled by their byte lists. -/
def sendString (st : CState) (outQueue : List Chunk) (s : Chunk) :
    Bool × List Chunk :=
  sendData st outQueue s

/-- Outbound drain of one worker tick, POSIX backend (NetworkTCP.cpp lines
220-235): while outQueue is non-empty, one send attempt of the whole head
chunk; when the result is below the chunk length, emit one warning, set
CLOSING and break without popping; otherwise pop_front and continue.  The
send results are an oracle indexed by attempt number; the result is
(chunks popped, CLOSING set, warnings emitted, remaining queue). -/
def drainOutQueue (send : Nat → Int) : Nat → List Chunk →
    Nat × Bool × Nat × List Chunk
  | _, [] => (0, false, 0, [])
  | i, c :: rest =>
    if send i < (c.length : Int) then (0, true, 1, c :: rest)
    else
      let w := drainOutQueue send (i + 1) rest
      (w.1 + 1, w.2.1, w.2.2.1, w.2.2.2)

/-- Receive step of the worker, POSIX backend (NetworkTCP.cpp lines
260-280): recv returning 0 means the peer has shut down, so set CLOSING
and break without a warning; a negative result is an error, warned once
and CLOSING; a positive result k appends the k received bytes (the first
k bytes the kernel placed in the stack buffer, modelled by buf) as one
chunk.  Result: (state, warnings emitted, in-queue state). -/
def handleRecv (st : CState) (recvRes : Int) (buf : Chunk)
    (q : InQueueState) : CState × Nat × InQueueState :=
  if recvRes = 0 then (CState.CLOSING, 0, q)
  else if recvRes < 0 then (CState.CLOSING, 1, q)
  else (st, 0, appendChunk (buf.take recvRes.toNat) q)

/-- Poll step of the worker, POSIX backend (NetworkTCP.cpp lines 240-259):
a result of 0 breaks out of the receive loop without a warning; a negative
result is warned once and sets CLOSING; revents different from POLLIN is
warned once and sets CLOSING; otherwise the worker proceeds to recv.
Result: (state, warnings emitted, proceed to recv). -/
def handlePoll (st : CState) (pollRes : Int) (reventsPollin : Bool) :
    CState × Nat × Bool :=
  if pollRes = 0 then (st, 0, false)
  else if pollRes < 0 then (CState.CLOSING, 1, false)
  else if reventsPollin = false then (CState.CLOSING, 1, false)
  else (st, 0, true)

/-- TCPServer::getIncomingConnection (NetworkTCP.cpp lines 491-499):
non-blocking dequeue of the front of newConnectionsQueue; a connection is
identified by the socket it wraps. -/
def getIncomingConnection (q : List Int) : Option Int × List Int :=
  match q with
  | [] => (none, q)
  | c :: rest => (some c, rest)

/-- Event on the server's connection queue: the worker accepting a client
socket and appending its connection (NetworkTCP.cpp lines 556-559), or a
caller invoking getIncomingConnection. -/
inductive ServerEvent where
  | accept : Int → ServerEvent
  | get : ServerEvent
deriving DecidableEq

/-- Queue state of a TCPServer together with two history fields used only
to state the FIFO property of C9: every connection ever returned, in
return order, and every connection ever accepted, in acceptance order. -/
structure ServerQueueState where
  pending : List Int
  returned : List Int
  accepted : List Int
deriving DecidableEq

/-- One event on the server queue: accept appends at the back (push_back),
get dequeues at the front via getIncomingConnection; the caller keeps the
dequeued connection when there is one. -/
def serverQueueStep (s : ServerQueueState) (e : ServerEvent) :
    ServerQueueState :=
  match e with
  | ServerEvent.accept fd => ⟨s.pending ++ [fd], s.returned, s.accepted ++ [fd]⟩
  | ServerEvent.get =>
    match getIncomingConnection s.pending with
    | (none, q2) => ⟨q2, s.returned, s.accepted⟩
    | (some c, q2) => ⟨q2, s.returned ++ [c], s.accepted⟩

/-- Fold of a sequence of accept/get events from the empty queue. -/
def serverQueueRun (evs : List ServerEvent) : ServerQueueState :=
  evs.foldl serverQueueStep ⟨[], [], []⟩

/-- One poll/accept round of TCPServer::run, POSIX backend (NetworkTCP.cpp
lines 534-560): poll < 0 warns once and sets CLOSING; poll > 0 with
revents different from POLLIN warns once and sets CLOSING; poll > 0 with
POLLIN calls accept and appends a TCPConnection built from whatever accept
returned (the return value is never checked); poll == 0 loops.  Result:
(state, warnings emitted, connection queue by wrapped socket). -/
def serverPollAcceptStep (pollRes : Int) (reventsPollin : Bool)
    (acceptRes : Int) (st : CState) (q : List Int) :
    CState × Nat × List Int :=
  if pollRes < 0 then (CState.CLOSING, 1, q)
  else if 0 < pollRes then
    if reventsPollin = false then (CState.CLOSING, 1, q)
    else (st, 0, q ++ [acceptRes])
  else (st, 0, q)

/-- Program counter of the worker thread for the cross-thread state
machine of TCPConnection::run (NetworkTCP.cpp lines 219-291): at the loop
test `while (isOpen())`, inside one tick, at the cleanup block after the
loop, or terminated. -/
inductive WPC where
  | loopTest : WPC
  | tick : WPC
  | cleanup : WPC
  | finished : WPC
deriving DecidableEq

/-- Program counter of a thread executing TCPConnection::close
(NetworkTCP.cpp lines 296-301): before the isOpen() read, after having
read OPEN and before the setState(CLOSING) write, waiting on join, or
returned. -/
inductive CPC where
  | start : CPC
  | armed : CPC
  | joinWait : CPC
  | finished : CPC
deriving DecidableEq

/-- Global state of the interleaved system: the shared connection state,
the two program counters and the number of times the socket has been
closed (the ::close call in the worker cleanup, NetworkTCP.cpp line 285). -/
structure Sys where
  st : CState
  wpc : WPC
  cpc : CPC
  socketCloses : Nat
deriving DecidableEq

/-- Labels of the atomic steps of the interleaved system: the worker's
loop test (seeing OPEN or not), one tick completing without or with an
error (an error performs setState(CLOSING) before control returns to the
loop test), the cleanup block (socket close and setState(CLOSED)); the
closer's isOpen() read, its setState(CLOSING) write, and its join, which
returns only once the worker has terminated.  Modelled from the spec
where the missing header NetworkTCP.h is concerned: setState writes the
given state under the state lock, isOpen reads it, join blocks until the
worker has finished. -/
inductive Lbl where
  | wTestOpen : Lbl
  | wTestExit : Lbl
  | wTickOk : Lbl
  | wTickErr : Lbl
  | wCleanup : Lbl
  | cRead : Lbl
  | cWrite : Lbl
  | cJoin : Lbl
deriving DecidableEq

/-- Enabled-step function of the interleaved system; none when the label
is not enabled in the given state. -/
def stepFn (l : Lbl) (s : Sys) : Option Sys :=
  match l with
  | Lbl.wTestOpen =>
    if s.wpc = WPC.loopTest ∧ s.st = CState.OPEN then
      some { s with wpc := WPC.tick } else none
  | Lbl.wTestExit =>
    if s.wpc = WPC.loopTest ∧ s.st ≠ CState.OPEN then
      some { s with wpc := WPC.cleanup } else none
  | Lbl.wTickOk =>
    if s.wpc = WPC.tick then some { s with wpc := WPC.loopTest } else none
  | Lbl.wTickErr =>
    if s.wpc = WPC.tick then
      some { s with st := CState.CLOSING, wpc := WPC.loopTest } else none
  | Lbl.wCleanup =>
    if s.wpc = WPC.cleanup then
      some { s with st := CState.CLOSED, wpc := WPC.finished,
                    socketCloses := s.socketCloses + 1 } else none
  | Lbl.cRead =>
    if s.cpc = CPC.start then
      some { s with cpc := if s.st = CState.OPEN then CPC.armed
                           else CPC.joinWait } else none
  | Lbl.cWrite =>
    if s.cpc = CPC.armed then
      some { s with st := CState.CLOSING, cpc := CPC.joinWait } else none
  | Lbl.cJoin =>
    if s.cpc = CPC.joinWait ∧ s.wpc = WPC.finished then
      some { s with cpc := CPC.finished } else none

/-- Initial state: connection OPEN, worker at its loop test, a closer
about to run close(), socket not yet closed. -/
def initSys : Sys := ⟨CState.OPEN, WPC.loopTest, CPC.start, 0⟩

/-- Run a trace of step labels; none when some step is not enabled. -/
def runTrace : Sys → List Lbl → Option Sys
  | s, [] => some s
  | s, l :: r =>
    match stepFn l s with
    | some s2 => runTrace s2 r
    | none => none

/-- Sequence of connection states observed after each step of a trace
(truncated at the first disabled step). -/
def obsStates : Sys → List Lbl → List CState
  | _, [] => []
  | s, l :: r =>
    match stepFn l s with
    | some s2 => s2.st :: obsStates s2 r
    | none => []

/-- Rank of a connection state in the progression OPEN, CLOSING, CLOSED. -/
def rank : CState → Nat
  | CState.OPEN => 0
  | CState.CLOSING => 1
  | CState.CLOSED => 2

/-- Monotonicity of an observed state sequence starting from a given
state: every consecutive pair is non-decreasing in rank. -/
def monoFrom : CState → List CState → Bool
  | _, [] => true
  | c, c2 :: r => decide (rank c ≤ rank c2) && monoFrom c2 r

/-- Predicate on a trace: the closer's setState(CLOSING) write never
happens when the state is already CLOSED, i.e. the close() call's stale
OPEN observation is never overtaken by the worker's shutdown. -/
def safeCWrites : Sys → List Lbl → Bool
  | _, [] => true
  | s, l :: r =>
    match stepFn l s with
    | some s2 =>
      (decide (l ≠ Lbl.cWrite) || decide (s.st ≠ CState.CLOSED)) &&
        safeCWrites s2 r
    | none => true

/-- Sequential rerun of TCPConnection::close on a quiescent system whose
worker has already finished: the isOpen() guard and the conditional
setState(CLOSING) write; the join is then a no-op. -/
def closeSeq (s : Sys) : Sys :=
  if s.st = CState.OPEN then { s with st := CState.CLOSING } else s

theorem totalLen_nil : totalLen [] = 0 := rfl

theorem totalLen_cons (c : Chunk) (q : List Chunk) :
    totalLen (c :: q) = c.length + totalLen q := by
  simp [totalLen]

theorem totalLen_eq_length_flatten (q : List Chunk) :
    totalLen q = q.flatten.length := by
  rw [List.length_flatten]; rfl

theorem extractWalk_cons_succ (c : Chunk) (rest : List Chunk) (m : Nat) :
    extractWalk (m + 1) (c :: rest) =
      if c.length ≤ m + 1 then
        (c ++ (extractWalk (m + 1 - c.length) rest).1,
         (extractWalk (m + 1 - c.length) rest).2.1 + 1,
         c :: (extractWalk (m + 1 - c.length) rest).2.2)
      else (c.take (m + 1), 0, c.drop (m + 1) :: rest) := by
  rfl

theorem chunkDropSpec_cons_succ (c : Chunk) (rest : List Chunk) (m : Nat) :
    chunkDropSpec (m + 1) (c :: rest) =
      if c.length ≤ m + 1 then chunkDropSpec (m + 1 - c.length) rest
      else c.drop (m + 1) :: rest := by
  rfl

theorem extractWalk_spec (q : List Chunk) : ∀ n : Nat, n ≤ totalLen q →
    (extractWalk n q).1 = q.flatten.take n ∧
    (extractWalk n q).2.2.length = q.length ∧
    (extractWalk n q).2.1 ≤ q.length ∧
    (extractWalk n q).2.2.drop (extractWalk n q).2.1 = chunkDropSpec n q := by
  induction q with
  | nil =>
    intro n hn
    refine ⟨?_, ?_, ?_, ?_⟩ <;> simp [extractWalk, chunkDropSpec]
  | cons c rest ih =>
    intro n hn
    cases n with
    | zero =>
      refine ⟨?_, ?_, ?_, ?_⟩ <;> simp [extractWalk, chunkDropSpec]
    | succ m =>
      rw [totalLen_cons] at hn
      rw [extractWalk_cons_succ, chunkDropSpec_cons_succ]
      by_cases h : c.length ≤ m + 1
      · obtain ⟨h1, h2, h3, h4⟩ := ih (m + 1 - c.length) (by omega)
        rw [if_pos h, if_pos h]
        refine ⟨?_, ?_, ?_, ?_⟩
        · show c ++ (extractWalk (m + 1 - c.length) rest).1 = _
          rw [List.flatten_cons, List.take_append_eq_append_take,
              List.take_of_length_le h, h1]
        · show (c :: (extractWalk (m + 1 - c.length) rest).2.2).length = _
          simp [h2]
        · show (extractWalk (m + 1 - c.length) rest).2.1 + 1 ≤ _
          simp; omega
        · show (c :: (extractWalk (m + 1 - c.length) rest).2.2).drop
              ((extractWalk (m + 1 - c.length) rest).2.1 + 1) = _
          simpa using h4
      · rw [if_neg h, if_neg h]
        refine ⟨?_, ?_, ?_, ?_⟩
        · show c.take (m + 1) = _
          rw [List.flatten_cons, List.take_append_eq_append_take,
              Nat.sub_eq_zero_of_le (by omega), List.take_zero,
              List.append_nil]
        · simp
        · simp
        · rfl

theorem chunkDropSpec_flatten (q : List Chunk) :
    ∀ n : Nat, (chunkDropSpec n q).flatten = q.flatten.drop n := by
  induction q with
  | nil => intro n; cases n <;> simp [chunkDropSpec]
  | cons c rest ih =>
    intro n
    cases n with
    | zero => simp [chunkDropSpec]
    | succ m =>
      rw [chunkDropSpec_cons_succ]
      by_cases h : c.length ≤ m + 1
      · rw [if_pos h, ih, List.flatten_cons, List.drop_append_eq_append_drop,
            List.drop_eq_nil_of_le h, List.nil_append]
      · rw [if_neg h, List.flatten_cons, List.flatten_cons,
            List.drop_append_eq_append_drop,
            Nat.sub_eq_zero_of_le (by omega), List.drop_zero]

theorem chunkDropSpec_totalLen (q : List Chunk) (n : Nat) :
    totalLen (chunkDropSpec n q) = totalLen q - n := by
  rw [totalLen_eq_length_flatten, totalLen_eq_length_flatten,
      chunkDropSpec_flatten, List.length_drop]

theorem extractDataFromInQueue_eq_of (n : Nat) (s : InQueueState)
    (h : ¬ (s.inQueueDataSize < n ∨ n = 0)) :
    extractDataFromInQueue n s =
      ((extractWalk n s.inQueue).1,
       InQueueState.mk
         (if (extractWalk n s.inQueue).2.1 = (extractWalk n s.inQueue).2.2.length
          then []
          else (extractWalk n s.inQueue).2.2.drop (extractWalk n s.inQueue).2.1)
         (s.inQueueDataSize - n)) := by
  simp only [extractDataFromInQueue, if_neg h]

theorem extractDataFromInQueue_of_le (n : Nat) (s : InQueueState)
    (hinv : invInQueue s) (hle : n ≤ s.inQueueDataSize) (hn : n ≠ 0) :
    (extractDataFromInQueue n s).1 = s.inQueue.flatten.take n ∧
    (extractDataFromInQueue n s).2.inQueue = chunkDropSpec n s.inQueue ∧
    (extractDataFromInQueue n s).2.inQueueDataSize = s.inQueueDataSize - n := by
  have hguard : ¬ (s.inQueueDataSize < n ∨ n = 0) := by omega
  have hle2 : n ≤ totalLen s.inQueue := by rw [← hinv]; exact hle
  obtain ⟨h1, h2, h3, h4⟩ := extractWalk_spec s.inQueue n hle2
  rw [extractDataFromInQueue_eq_of n s hguard]
  refine ⟨h1, ?_, rfl⟩
  show (if _ then _ else _) = _
  by_cases hk : (extractWalk n s.inQueue).2.1 = (extractWalk n s.inQueue).2.2.length
  · rw [if_pos hk, ← h4, hk, List.drop_length]
  · rw [if_neg hk]
    exact h4

theorem extractDataFromInQueue_guard (n : Nat) (s : InQueueState)
    (h : s.inQueueDataSize < n ∨ n = 0) :
    extractDataFromInQueue n s = ([], s) := by
  simp only [extractDataFromInQueue, if_pos h]

/-- C1: for every connection state and every n, receiveData(n) returns
exactly the next n bytes of inQueue in FIFO order iff inQueueDataSize ≥ n
at the locked observation; otherwise it returns an empty result and leaves
inQueue and inQueueDataSize unchanged (no partial extraction). -/
theorem receiveData_exact_iff (n : Nat) (s : InQueueState)
    (hinv : invInQueue s) :
    ((receiveData n s).1.length = n ↔ n ≤ s.inQueueDataSize) ∧
    (n ≤ s.inQueueDataSize →
      (receiveData n s).1 = s.inQueue.flatten.take n ∧
      (receiveData n s).2.inQueue.flatten = s.inQueue.flatten.drop n ∧
      (receiveData n s).2.inQueueDataSize = s.inQueueDataSize - n) ∧
    (s.inQueueDataSize < n → receiveData n s = ([], s)) := by
  have hflat : s.inQueue.flatten.length = s.inQueueDataSize := by
    rw [← totalLen_eq_length_flatten, hinv]
  by_cases hle : n ≤ s.inQueueDataSize
  · have hrd : receiveData n s = extractDataFromInQueue n s := by
      simp only [receiveData, if_pos hle]
    by_cases hn : n = 0
    · subst hn
      rw [hrd, extractDataFromInQueue_guard 0 s (Or.inr rfl)]
      refine ⟨by simp, fun _ => ⟨by simp, by simp, by simp⟩, by omega⟩
    · obtain ⟨h1, h2, h3⟩ := extractDataFromInQueue_of_le n s hinv hle hn
      rw [hrd]
      refine ⟨?_, fun _ => ⟨h1, ?_, h3⟩, by omega⟩
      · rw [h1, List.length_take, hflat]
        omega
      · rw [h2, chunkDropSpec_flatten]
  · have hrd : receiveData n s = ([], s) := by
      simp only [receiveData, ge_iff_le, if_neg hle]
    rw [hrd]
    refine ⟨?_, fun h => absurd h hle, fun _ => rfl⟩
    simp only [List.length_nil]
    omega

/-- Witness for C1 at the concrete queue [[1,2],[3,4,5],[6]] with n = 3. -/
theorem receiveData_exact_iff_witness :
    invInQueue (InQueueState.mk [[1, 2], [3, 4, 5], [6]] 6) ∧
    (receiveData 3 (InQueueState.mk [[1, 2], [3, 4, 5], [6]] 6)).1
      = [1, 2, 3] :=
  ⟨by decide, by
    have h := (receiveData_exact_iff 3 (InQueueState.mk [[1, 2], [3, 4, 5], [6]] 6)
      (by decide)).2.1 (by decide)
    exact h.1.trans (by decide)⟩

/-- C3: the invariant inQueueDataSize = total length of the chunks of
inQueue holds initially and is preserved by every operation: extraction
removes fully consumed chunks, replaces a partially consumed chunk by its
suffix (the chunkDropSpec shape), returns exactly numBytes bytes and
decreases the counter by exactly that number; the worker's inbound append
adds one k-byte chunk and increases the counter by k. -/
theorem inQueue_size_invariant (n : Nat) (c : Chunk) (s : InQueueState)
    (hinv : invInQueue s) :
    invInQueue (InQueueState.mk [] 0) ∧
    invInQueue (extractDataFromInQueue n s).2 ∧
    (n ≤ s.inQueueDataSize → n ≠ 0 →
      (extractDataFromInQueue n s).1.length = n ∧
      (extractDataFromInQueue n s).2.inQueueDataSize
        = s.inQueueDataSize - n ∧
      (extractDataFromInQueue n s).2.inQueue = chunkDropSpec n s.inQueue) ∧
    invInQueue (appendChunk c s) ∧
    (appendChunk c s).inQueueDataSize = s.inQueueDataSize + c.length := by
  have hflat : s.inQueue.flatten.length = s.inQueueDataSize := by
    rw [← totalLen_eq_length_flatten, hinv]
  have happ : invInQueue (appendChunk c s) := by
    unfold invInQueue appendChunk totalLen at *
    simp [hinv]
  refine ⟨by decide, ?_, ?_, happ, rfl⟩
  · by_cases hg : s.inQueueDataSize < n ∨ n = 0
    · rw [extractDataFromInQueue_guard n s hg]; exact hinv
    · push_neg at hg
      obtain ⟨h1, h2, h3⟩ :=
        extractDataFromInQueue_of_le n s hinv (by omega) hg.2
      unfold invInQueue
      rw [h2, h3, chunkDropSpec_totalLen, hinv]
  · intro hle hn
    obtain ⟨h1, h2, h3⟩ := extractDataFromInQueue_of_le n s hinv hle hn
    refine ⟨?_, h3, h2⟩
    rw [h1, List.length_take, hflat]
    omega

theorem scanChunk_spec (d : Byte) (c : Chunk) :
    (scanChunk d c).2 = decide (d ∈ c) ∧
    (scanChunk d c).1 = (c.takeWhile (notDelim d)).length := by
  induction c with
  | nil => simp [scanChunk]
  | cons b bs ih =>
    by_cases h : b = d
    · subst h
      refine ⟨?_, ?_⟩ <;> simp [scanChunk, List.takeWhile_cons, notDelim]
    · have hsym : ¬ (d = b) := fun hh => h hh.symm
      refine ⟨?_, ?_⟩
      · simp only [scanChunk, if_neg h]
        rw [ih.1, decide_eq_decide, List.mem_cons]
        constructor
        · exact Or.inr
        · intro hh
          rcases hh with hh | hh
          · exact absurd hh hsym
          · exact hh
      · simp only [scanChunk, if_neg h]
        rw [ih.2, List.takeWhile_cons]
        have : notDelim d b = true := by simp [notDelim, h]
        rw [this]
        simp

theorem takeWhile_append_mem (d : Byte) (c l : List Byte) (h : d ∈ c) :
    (c ++ l).takeWhile (notDelim d) = c.takeWhile (notDelim d) := by
  induction c with
  | nil => cases h
  | cons b bs ih =>
    by_cases hb : b = d
    · subst hb
      simp [List.takeWhile_cons, notDelim]
    · have hd : d ∈ bs := by
        rcases List.mem_cons.mp h with hh | hh
        · exact absurd hh.symm hb
        · exact hh
      have hnb : notDelim d b = true := by simp [notDelim, hb]
      simp only [List.cons_append, List.takeWhile_cons, hnb, if_pos]
      rw [ih hd]

theorem takeWhile_append_not_mem (d : Byte) (c l : List Byte) (h : d ∉ c) :
    (c ++ l).takeWhile (notDelim d) = c ++ l.takeWhile (notDelim d) := by
  induction c with
  | nil => simp
  | cons b bs ih =>
    have hb : ¬ (b = d) := fun hh => h (by rw [hh]; exact List.mem_cons_self d bs)
    have hd : d ∉ bs := fun hh => h (List.mem_cons_of_mem b hh)
    have hnb : notDelim d b = true := by simp [notDelim, hb]
    simp only [List.cons_append, List.takeWhile_cons, hnb, if_pos]
    rw [ih hd]

theorem takeWhile_eq_self_not_mem (d : Byte) (c : List Byte) (h : d ∉ c) :
    c.takeWhile (notDelim d) = c := by
  have := takeWhile_append_not_mem d c [] h
  simpa using this

theorem findDelim_spec (d : Byte) (q : List Chunk) :
    (findDelim d q).2 = decide (d ∈ q.flatten) ∧
    (findDelim d q).1 = (q.flatten.takeWhile (notDelim d)).length := by
  induction q with
  | nil => simp [findDelim]
  | cons c rest ih =>
    obtain ⟨s2, s1⟩ := scanChunk_spec d c
    by_cases h : d ∈ c
    · have hf : (scanChunk d c).2 = true := by rw [s2]; simp [h]
      refine ⟨?_, ?_⟩
      · simp only [findDelim, hf, if_pos]
        rw [List.flatten_cons]
        have : d ∈ c ++ rest.flatten := List.mem_append.mpr (Or.inl h)
        simp [this]
      · simp only [findDelim, hf, if_pos]
        rw [s1, List.flatten_cons, takeWhile_append_mem d c _ h]
    · have hf : (scanChunk d c).2 = false := by rw [s2]; simp [h]
      refine ⟨?_, ?_⟩
      · simp only [findDelim, hf, Bool.false_eq_true, if_neg not_false]
        show (findDelim d rest).2 = _
        rw [ih.1, decide_eq_decide, List.flatten_cons, List.mem_append]
        constructor
        · exact Or.inr
        · intro hh
          rcases hh with hh | hh
          · exact absurd hh h
          · exact hh
      · simp only [findDelim, hf, Bool.false_eq_true, if_neg not_false]
        show (scanChunk d c).1 + (findDelim d rest).1 = _
        rw [ih.2, s1, List.flatten_cons, takeWhile_append_not_mem d c _ h,
            takeWhile_eq_self_not_mem d c h, List.length_append]

theorem take_firstPos_succ (d : Byte) (l : List Byte) (h : d ∈ l) :
    l.take ((l.takeWhile (notDelim d)).length + 1)
      = l.takeWhile (notDelim d) ++ [d] := by
  induction l with
  | nil => cases h
  | cons b bs ih =>
    by_cases hb : b = d
    · subst hb
      simp [List.takeWhile_cons, notDelim]
    · have hd : d ∈ bs := by
        rcases List.mem_cons.mp h with hh | hh
        · exact absurd hh.symm hb
        · exact hh
      have hnb : notDelim d b = true := by simp [notDelim, hb]
      simp only [List.takeWhile_cons, hnb, if_pos, List.length_cons,
        List.take_succ_cons, List.cons_append, List.cons.injEq, true_and]
      exact ih hd

theorem firstPos_lt_length (d : Byte) (l : List Byte) (h : d ∈ l) :
    (l.takeWhile (notDelim d)).length < l.length := by
  induction l with
  | nil => cases h
  | cons b bs ih =>
    by_cases hb : b = d
    · subst hb
      simp [List.takeWhile_cons, notDelim]
    · have hd : d ∈ bs := by
        rcases List.mem_cons.mp h with hh | hh
        · exact absurd hh.symm hb
        · exact hh
      have hnb : notDelim d b = true := by simp [notDelim, hb]
      simp only [List.takeWhile_cons, hnb, if_pos, List.length_cons]
      exact Nat.succ_lt_succ (ih hd)

theorem count_takeWhile_notDelim (d : Byte) (l : List Byte) :
    (l.takeWhile (notDelim d)).count d = 0 := by
  rw [List.count_eq_zero]
  intro hmem
  have := List.mem_takeWhile_imp hmem
  simp [notDelim] at this

/-- C2: receiveString(d) returns a non-empty result iff a byte equal to d
is in inQueue; when the first occurrence is at FIFO index p it extracts
and returns exactly the bytes up to and including position p, so the
result ends with exactly one d at the last position, and it consumes
exactly those bytes from the queue; with no delimiter present it returns
the empty string and leaves the queue untouched. -/
theorem receiveString_delim_spec (d : Byte) (s : InQueueState)
    (hinv : invInQueue s) :
    ((receiveString d s).1 ≠ [] ↔ d ∈ s.inQueue.flatten) ∧
    (d ∈ s.inQueue.flatten →
      (receiveString d s).1
        = s.inQueue.flatten.take
            ((s.inQueue.flatten.takeWhile (notDelim d)).length + 1) ∧
      (receiveString d s).1.getLast? = some d ∧
      (receiveString d s).1.count d = 1 ∧
      (receiveString d s).2.inQueue.flatten
        = s.inQueue.flatten.drop
            ((s.inQueue.flatten.takeWhile (notDelim d)).length + 1) ∧
      (receiveString d s).2.inQueueDataSize
        = s.inQueueDataSize
            - ((s.inQueue.flatten.takeWhile (notDelim d)).length + 1) ∧
      invInQueue (receiveString d s).2) ∧
    (d ∉ s.inQueue.flatten → receiveString d s = ([], s)) := by
  have hlen : s.inQueue.flatten.length = s.inQueueDataSize := by
    rw [← totalLen_eq_length_flatten, hinv]
  by_cases hz : s.inQueueDataSize = 0
  · have hfl : s.inQueue.flatten = [] := by
      have : s.inQueue.flatten.length = 0 := by rw [hlen, hz]
      exact List.eq_nil_of_length_eq_zero this
    have hrs : receiveString d s = ([], s) := by
      simp only [receiveString, if_pos hz]
    rw [hrs, hfl]
    refine ⟨by simp, by simp, fun _ => rfl⟩
  · obtain ⟨f2, f1⟩ := findDelim_spec d s.inQueue
    by_cases hm : d ∈ s.inQueue.flatten
    · have hf : (findDelim d s.inQueue).2 = true := by rw [f2]; simp [hm]
      have hplt : (s.inQueue.flatten.takeWhile (notDelim d)).length
          < s.inQueue.flatten.length := firstPos_lt_length d _ hm
      have hle : (s.inQueue.flatten.takeWhile (notDelim d)).length + 1
          ≤ s.inQueueDataSize := by omega
      obtain ⟨e1, e2, e3⟩ := extractDataFromInQueue_of_le _ s hinv hle
        (by omega)
      have hlen1 : (extractDataFromInQueue
          ((s.inQueue.flatten.takeWhile (notDelim d)).length + 1) s).1.length
          = (s.inQueue.flatten.takeWhile (notDelim d)).length + 1 := by
        rw [e1, List.length_take, hlen]
        omega
      have hemp : (extractDataFromInQueue
          ((s.inQueue.flatten.takeWhile (notDelim d)).length + 1) s).1.isEmpty
          = false := by
        rcases hq : (extractDataFromInQueue
            ((s.inQueue.flatten.takeWhile (notDelim d)).length + 1) s).1 with
          _ | ⟨a, l⟩
        · rw [hq] at hlen1; simp at hlen1
        · rfl
      have hrs : receiveString d s =
          ((extractDataFromInQueue
            ((s.inQueue.flatten.takeWhile (notDelim d)).length + 1) s).1,
           (extractDataFromInQueue
            ((s.inQueue.flatten.takeWhile (notDelim d)).length + 1) s).2) := by
        simp only [receiveString, if_neg hz, hf, if_pos, f1, hemp,
          Bool.false_eq_true, if_neg not_false]
      rw [hrs]
      have htake := take_firstPos_succ d s.inQueue.flatten hm
      refine ⟨?_, fun _ => ⟨e1, ?_, ?_, ?_, e3, ?_⟩, ?_⟩
      · constructor
        · intro _; exact hm
        · intro _
          intro hq
          rw [hq] at hlen1
          simp at hlen1
      · rw [e1, htake, List.getLast?_concat]
      · rw [e1, htake, List.count_append, count_takeWhile_notDelim]
        simp
      · rw [e2, chunkDropSpec_flatten]
      · unfold invInQueue
        rw [e2, e3, chunkDropSpec_totalLen, hinv]
      · exact fun hmm => absurd hm hmm
    · have hf : (findDelim d s.inQueue).2 = false := by rw [f2]; simp [hm]
      have hrs : receiveString d s = ([], s) := by
        simp only [receiveString, if_neg hz, hf, Bool.false_eq_true,
          if_neg not_false]
      rw [hrs]
      exact ⟨by simp [hm], fun hh => absurd hh hm, fun _ => rfl⟩

/-- Witness for C2 at the concrete queue [[5,0],[7,0]] with delimiter 0. -/
theorem receiveString_delim_spec_witness :
    invInQueue (InQueueState.mk [[5, 0], [7, 0]] 4) ∧
    (receiveString 0 (InQueueState.mk [[5, 0], [7, 0]] 4)).1 = [5, 0] :=
  ⟨by decide, by
    have h := (receiveString_delim_spec 0 (InQueueState.mk [[5, 0], [7, 0]] 4)
      (by decide)).2.1 (by decide)
    exact h.1.trans (by decide)⟩

/-- Witness for C3 at the concrete queue [[1,2],[3,4,5],[6]] with n = 4 and
an appended chunk [7,8]. -/
theorem inQueue_size_invariant_witness :
    invInQueue (InQueueState.mk [[1, 2], [3, 4, 5], [6]] 6) ∧
    invInQueue (extractDataFromInQueue 4
      (InQueueState.mk [[1, 2], [3, 4, 5], [6]] 6)).2 ∧
    invInQueue (appendChunk [7, 8]
      (InQueueState.mk [[1, 2], [3, 4, 5], [6]] 6)) :=
  ⟨by decide,
    (inQueue_size_invariant 4 [7, 8]
      (InQueueState.mk [[1, 2], [3, 4, 5], [6]] 6) (by decide)).2.1,
    (inQueue_size_invariant 4 [7, 8]
      (InQueueState.mk [[1, 2], [3, 4, 5], [6]] 6) (by decide)).2.2.2.1⟩

/-- C7: sendData appends the payload as one chunk at the back of outQueue
and returns true when the connection state is OPEN; when the state is not
OPEN it returns false and nothing is enqueued; sendString is sendData on
the raw bytes of the string. -/
theorem sendData_spec (st : CState) (q : List Chunk) (data s : Chunk) :
    (st = CState.OPEN → sendData st q data = (true, q ++ [data])) ∧
    (st ≠ CState.OPEN → sendData st q data = (false, q)) ∧
    sendString st q s = sendData st q s := by
  refine ⟨?_, ?_, rfl⟩
  · intro h
    simp [sendData, isOpenState, h]
  · intro h
    simp [sendData, isOpenState, h]

/-- Witness for C7: an open connection enqueues, a closing one rejects. -/
theorem sendData_spec_witness :
    sendData CState.OPEN [] [1] = (true, [[1]]) ∧
    sendData CState.CLOSING [[2]] [1] = (false, [[2]]) :=
  ⟨(sendData_spec CState.OPEN [] [1] [1]).1 rfl,
   (sendData_spec CState.CLOSING [[2]] [1] [1]).2.1 (by decide)⟩

theorem drainOutQueue_spec (send : Nat → Int) (q : List Chunk) :
    ∀ i : Nat,
    (drainOutQueue send i q).2.2.2 = q.drop (drainOutQueue send i q).1 ∧
    (drainOutQueue send i q).1 ≤ q.length ∧
    (∀ j, j < (drainOutQueue send i q).1 →
      ((q.getD j []).length : Int) ≤ send (i + j)) ∧
    ((drainOutQueue send i q).2.1 = true ↔
      (drainOutQueue send i q).1 < q.length) ∧
    ((drainOutQueue send i q).2.1 = true →
      send (i + (drainOutQueue send i q).1)
        < ((q.getD (drainOutQueue send i q).1 []).length : Int)) ∧
    (drainOutQueue send i q).2.2.1
      = (if (drainOutQueue send i q).2.1 then 1 else 0) := by
  induction q with
  | nil =>
    intro i
    refine ⟨rfl, Nat.le_refl 0, fun j hj => absurd hj (by simp [drainOutQueue]),
      ?_, ?_, rfl⟩
    · simp [drainOutQueue]
    · simp [drainOutQueue]
  | cons c rest ih =>
    intro i
    by_cases hfail : send i < (c.length : Int)
    · have hd : drainOutQueue send i (c :: rest) = (0, true, 1, c :: rest) := by
        simp only [drainOutQueue, if_pos hfail]
      rw [hd]
      refine ⟨rfl, Nat.zero_le _, fun j hj => absurd hj (by omega), ?_, ?_, rfl⟩
      · simp
      · intro _
        simpa using hfail
    · have hd : drainOutQueue send i (c :: rest) =
          ((drainOutQueue send (i + 1) rest).1 + 1,
           (drainOutQueue send (i + 1) rest).2.1,
           (drainOutQueue send (i + 1) rest).2.2.1,
           (drainOutQueue send (i + 1) rest).2.2.2) := by
        simp only [drainOutQueue, if_neg hfail]
      obtain ⟨h1, h2, h3, h4, h5, h6⟩ := ih (i + 1)
      rw [hd]
      refine ⟨?_, ?_, ?_, ?_, ?_, h6⟩
      · rw [List.drop_succ_cons]
        exact h1
      · simp only [List.length_cons]
        omega
      · intro j hj
        cases j with
        | zero =>
          simpa using Int.not_lt.mp hfail
        | succ j2 =>
          have : ((rest.getD j2 []).length : Int) ≤ send ((i + 1) + j2) :=
            h3 j2 (by omega)
          rw [show i + (j2 + 1) = (i + 1) + j2 from by omega]
          simpa using this
      · rw [h4]
        simp only [List.length_cons]
        omega
      · intro ht
        have := h5 ht
        rw [show i + ((drainOutQueue send (i + 1) rest).1 + 1)
            = (i + 1) + (drainOutQueue send (i + 1) rest).1 from by omega]
        simpa using this

/-- C4: in every pass of the worker's outbound drain, each chunk of
outQueue is either transmitted in full by a single write attempt and then
popped, or left in place at its head position: the pass pops a front
segment of chunks whose write results each reached the chunk length, the
remaining queue is exactly the untouched suffix starting at the failing
chunk, and a short write sets CLOSING and stops the pass without popping
or partially consuming that chunk. -/
theorem outQueue_drain_all_or_nothing (send : Nat → Int) (q : List Chunk) :
    (drainOutQueue send 0 q).2.2.2 = q.drop (drainOutQueue send 0 q).1 ∧
    (∀ j, j < (drainOutQueue send 0 q).1 →
      ((q.getD j []).length : Int) ≤ send j) ∧
    ((drainOutQueue send 0 q).2.1 = true ↔
      (drainOutQueue send 0 q).1 < q.length) ∧
    ((drainOutQueue send 0 q).2.1 = true →
      send (drainOutQueue send 0 q).1
        < ((q.getD (drainOutQueue send 0 q).1 []).length : Int)) := by
  obtain ⟨h1, h2, h3, h4, h5, h6⟩ := drainOutQueue_spec send q 0
  refine ⟨h1, fun j hj => ?_, h4, fun ht => ?_⟩
  · have := h3 j hj
    rwa [Nat.zero_add] at this
  · have := h5 ht
    rwa [Nat.zero_add] at this

/-- Witness for C4: with write results 10, 0, 10 on the queue
[[1,2],[3,4,5],[6]], the first chunk is popped, the short write on the
second stops the pass and leaves the suffix in place. -/
theorem outQueue_drain_all_or_nothing_witness :
    (drainOutQueue (fun i => if i = 1 then 0 else 10) 0
      [[1, 2], [3, 4, 5], [6]]).2.2.2 = [[3, 4, 5], [6]] := by
  have h := (outQueue_drain_all_or_nothing (fun i => if i = 1 then 0 else 10)
    [[1, 2], [3, 4, 5], [6]]).1
  rw [h]
  decide

/-- C8: recv returning 0 (orderly peer close) sets CLOSING without a
warning and leaves the in-queue untouched; a recv error, a poll error and
a poll error event each set CLOSING with exactly one warning; a short
send sets CLOSING with exactly one warning (and no warning is counted
when the drain completes); a successful recv of k bytes keeps the state
and appends one chunk; CLOSING makes isOpen false, which is how callers
observe the failure. -/
theorem worker_error_transitions (st : CState) (r : Int) (buf : Chunk)
    (q : InQueueState) (p : Int) (send : Nat → Int) (oq : List Chunk) :
    handleRecv st 0 buf q = (CState.CLOSING, 0, q) ∧
    (r < 0 → handleRecv st r buf q = (CState.CLOSING, 1, q)) ∧
    (0 < r → handleRecv st r buf q = (st, 0, appendChunk (buf.take r.toNat) q)) ∧
    (p < 0 → handlePoll st p true = (CState.CLOSING, 1, false)) ∧
    (0 < p → handlePoll st p false = (CState.CLOSING, 1, false)) ∧
    ((drainOutQueue send 0 oq).2.1 = true →
      (drainOutQueue send 0 oq).2.2.1 = 1) ∧
    ((drainOutQueue send 0 oq).2.1 = false →
      (drainOutQueue send 0 oq).2.2.1 = 0) ∧
    isOpenState CState.CLOSING = false := by
  obtain ⟨_, _, _, _, _, h6⟩ := drainOutQueue_spec send oq 0
  refine ⟨by simp [handleRecv], ?_, ?_, ?_, ?_, ?_, ?_, rfl⟩
  · intro h
    simp only [handleRecv]
    rw [if_neg (by omega), if_pos h]
  · intro h
    simp only [handleRecv]
    rw [if_neg (by omega), if_neg (by omega)]
  · intro h
    simp only [handlePoll]
    rw [if_neg (by omega), if_pos h]
  · intro h
    simp only [handlePoll]
    rw [if_neg (by omega), if_neg (by omega)]
    simp
  · intro h
    rw [h6, h]
    rfl
  · intro h
    rw [h6, h]
    rfl

/-- Witness for C8: a recv error at result -1 and an orderly close at 0 on
an empty queue. -/
theorem worker_error_transitions_witness :
    handleRecv CState.OPEN (-1) [1] (InQueueState.mk [] 0)
      = (CState.CLOSING, 1, InQueueState.mk [] 0) ∧
    handleRecv CState.OPEN 0 [1] (InQueueState.mk [] 0)
      = (CState.CLOSING, 0, InQueueState.mk [] 0) :=
  ⟨(worker_error_transitions CState.OPEN (-1) [1] (InQueueState.mk [] 0)
      0 (fun _ => 0) []).2.1 (by decide),
   (worker_error_transitions CState.OPEN (-1) [1] (InQueueState.mk [] 0)
      0 (fun _ => 0) []).1⟩

theorem serverQueue_fifo_aux (evs : List ServerEvent) :
    ∀ s : ServerQueueState, s.returned ++ s.pending = s.accepted →
    (evs.foldl serverQueueStep s).returned
      ++ (evs.foldl serverQueueStep s).pending
      = (evs.foldl serverQueueStep s).accepted := by
  induction evs with
  | nil => exact fun s h => h
  | cons e r ih =>
    intro s h
    rw [List.foldl_cons]
    apply ih
    cases e with
    | accept fd =>
      simp only [serverQueueStep]
      rw [← List.append_assoc, h]
    | get =>
      simp only [serverQueueStep]
      cases hq : s.pending with
      | nil =>
        rw [hq] at h
        simp only [getIncomingConnection, List.append_nil] at h ⊢
        exact h
      | cons c rest =>
        rw [hq] at h
        simp only [getIncomingConnection]
        rw [List.append_assoc]
        simpa using h

/-- C9: getIncomingConnection is a non-blocking FIFO dequeue of the
pending queue: it returns the oldest pending accepted connection (the
front) or nothing when empty, and across any sequence of accept/get
events the returned connections in return order, followed by the still
pending ones, are exactly the accepted connections in acceptance order —
connections are handed out in the order the worker accepted them. -/
theorem incoming_connection_fifo (evs : List ServerEvent) (c : Int)
    (rest : List Int) :
    getIncomingConnection [] = (none, []) ∧
    getIncomingConnection (c :: rest) = (some c, rest) ∧
    (serverQueueRun evs).returned ++ (serverQueueRun evs).pending
      = (serverQueueRun evs).accepted ∧
    (serverQueueRun evs).returned
      = (serverQueueRun evs).accepted.take
          (serverQueueRun evs).returned.length := by
  have hrp : (serverQueueRun evs).returned ++ (serverQueueRun evs).pending
      = (serverQueueRun evs).accepted :=
    serverQueue_fifo_aux evs ⟨[], [], []⟩ rfl
  refine ⟨rfl, rfl, hrp, ?_⟩
  rw [← hrp, List.take_left]

/-- C10: the POSIX TCPServer worker never checks the return value of
accept: whenever poll reports POLLIN readiness, a connection built from
whatever accept returned — including -1 on failure — is appended to the
pending queue with no warning and no state change. -/
theorem server_accept_unchecked (a : Int) (st : CState) (q : List Int) :
    serverPollAcceptStep 1 true a st q = (st, 0, q ++ [a]) ∧
    serverPollAcceptStep 1 true (-1) st q = (st, 0, q ++ [-1]) := by
  constructor <;> simp [serverPollAcceptStep]

theorem step_forward (l : Lbl) (s s2 : Sys)
    (h1 : s.wpc = WPC.finished → s.st = CState.CLOSED)
    (h2 : s.wpc ≠ WPC.finished → s.st ≠ CState.CLOSED)
    (hsafe : l = Lbl.cWrite → s.st ≠ CState.CLOSED)
    (hstep : stepFn l s = some s2) :
    rank s.st ≤ rank s2.st ∧
    (s2.wpc = WPC.finished → s2.st = CState.CLOSED) ∧
    (s2.wpc ≠ WPC.finished → s2.st ≠ CState.CLOSED) := by
  cases l with
  | wTestOpen =>
    simp only [stepFn] at hstep
    split at hstep
    next hcond =>
      rw [Option.some.injEq] at hstep
      subst hstep
      refine ⟨Nat.le_refl _, fun h => absurd h (fun hh => WPC.noConfusion hh), fun _ => ?_⟩
      show s.st ≠ CState.CLOSED
      rw [hcond.2]
      decide
    next => exact Option.noConfusion hstep
  | wTestExit =>
    simp only [stepFn] at hstep
    split at hstep
    next hcond =>
      rw [Option.some.injEq] at hstep
      subst hstep
      refine ⟨Nat.le_refl _, fun h => absurd h (fun hh => WPC.noConfusion hh), fun _ => ?_⟩
      show s.st ≠ CState.CLOSED
      exact h2 (by rw [hcond.1]; decide)
    next => exact Option.noConfusion hstep
  | wTickOk =>
    simp only [stepFn] at hstep
    split at hstep
    next hcond =>
      rw [Option.some.injEq] at hstep
      subst hstep
      refine ⟨Nat.le_refl _, fun h => absurd h (fun hh => WPC.noConfusion hh), fun _ => ?_⟩
      show s.st ≠ CState.CLOSED
      exact h2 (by rw [hcond]; decide)
    next => exact Option.noConfusion hstep
  | wTickErr =>
    simp only [stepFn] at hstep
    split at hstep
    next hcond =>
      rw [Option.some.injEq] at hstep
      subst hstep
      have hne : s.st ≠ CState.CLOSED := h2 (by rw [hcond]; decide)
      refine ⟨?_, fun h => absurd h (fun hh => WPC.noConfusion hh), fun _ => fun hh => CState.noConfusion hh⟩
      show rank s.st ≤ rank CState.CLOSING
      cases hs : s.st with
      | OPEN => decide
      | CLOSING => decide
      | CLOSED => exact absurd hs hne
    next => exact Option.noConfusion hstep
  | wCleanup =>
    simp only [stepFn] at hstep
    split at hstep
    next hcond =>
      rw [Option.some.injEq] at hstep
      subst hstep
      refine ⟨?_, fun _ => rfl, fun h => absurd rfl h⟩
      show rank s.st ≤ rank CState.CLOSED
      cases s.st <;> decide
    next => exact Option.noConfusion hstep
  | cRead =>
    simp only [stepFn] at hstep
    split at hstep
    next hcond =>
      rw [Option.some.injEq] at hstep
      subst hstep
      exact ⟨Nat.le_refl _, h1, h2⟩
    next => exact Option.noConfusion hstep
  | cWrite =>
    simp only [stepFn] at hstep
    split at hstep
    next hcond =>
      rw [Option.some.injEq] at hstep
      subst hstep
      have hne : s.st ≠ CState.CLOSED := hsafe rfl
      refine ⟨?_, ?_, fun _ => fun hh => CState.noConfusion hh⟩
      · show rank s.st ≤ rank CState.CLOSING
        cases hs : s.st with
        | OPEN => decide
        | CLOSING => decide
        | CLOSED => exact absurd hs hne
      · intro h
        have := h1 h
        exact absurd this hne
    next => exact Option.noConfusion hstep
  | cJoin =>
    simp only [stepFn] at hstep
    split at hstep
    next hcond =>
      rw [Option.some.injEq] at hstep
      subst hstep
      exact ⟨Nat.le_refl _, h1, h2⟩
    next => exact Option.noConfusion hstep

theorem monoFrom_of_safe (tr : List Lbl) : ∀ s : Sys,
    (s.wpc = WPC.finished → s.st = CState.CLOSED) →
    (s.wpc ≠ WPC.finished → s.st ≠ CState.CLOSED) →
    safeCWrites s tr = true →
    monoFrom s.st (obsStates s tr) = true := by
  induction tr with
  | nil => intro s _ _ _; rfl
  | cons l r ih =>
    intro s h1 h2 hsafe
    cases hstep : stepFn l s with
    | none =>
      simp only [obsStates, hstep]
      rfl
    | some s2 =>
      simp only [obsStates, hstep, monoFrom]
      rw [Bool.and_eq_true]
      simp only [safeCWrites, hstep, Bool.and_eq_true] at hsafe
      have hsafe1 : l = Lbl.cWrite → s.st ≠ CState.CLOSED := by
        intro hl
        have hh : l ≠ Lbl.cWrite ∨ s.st ≠ CState.CLOSED := by
          simpa using hsafe.1
        rcases hh with hA | hB
        · exact absurd hl hA
        · exact hB
      obtain ⟨hfw, hi1, hi2⟩ := step_forward l s s2 h1 h2 hsafe1 hstep
      exact ⟨decide_eq_true hfw, ih s2 hi1 hi2 hsafe.2⟩

theorem closed_written_only_by_cleanup (l : Lbl) (s s2 : Sys)
    (hstep : stepFn l s = some s2) (hpre : s.st ≠ CState.CLOSED)
    (hpost : s2.st = CState.CLOSED) : l = Lbl.wCleanup := by
  cases l with
  | wCleanup => rfl
  | wTestOpen =>
    simp only [stepFn] at hstep
    split at hstep
    next =>
      rw [Option.some.injEq] at hstep
      subst hstep
      exact absurd hpost hpre
    next => exact Option.noConfusion hstep
  | wTestExit =>
    simp only [stepFn] at hstep
    split at hstep
    next =>
      rw [Option.some.injEq] at hstep
      subst hstep
      exact absurd hpost hpre
    next => exact Option.noConfusion hstep
  | wTickOk =>
    simp only [stepFn] at hstep
    split at hstep
    next =>
      rw [Option.some.injEq] at hstep
      subst hstep
      exact absurd hpost hpre
    next => exact Option.noConfusion hstep
  | wTickErr =>
    simp only [stepFn] at hstep
    split at hstep
    next =>
      rw [Option.some.injEq] at hstep
      subst hstep
      exact CState.noConfusion hpost
    next => exact Option.noConfusion hstep
  | cRead =>
    simp only [stepFn] at hstep
    split at hstep
    next =>
      rw [Option.some.injEq] at hstep
      subst hstep
      exact absurd hpost hpre
    next => exact Option.noConfusion hstep
  | cWrite =>
    simp only [stepFn] at hstep
    split at hstep
    next =>
      rw [Option.some.injEq] at hstep
      subst hstep
      exact CState.noConfusion hpost
    next => exact Option.noConfusion hstep
  | cJoin =>
    simp only [stepFn] at hstep
    split at hstep
    next =>
      rw [Option.some.injEq] at hstep
      subst hstep
      exact absurd hpost hpre
    next => exact Option.noConfusion hstep

/-- C5 (amended): in the interleaved model of TCPConnection::run and
TCPConnection::close, the CLOSING → CLOSED step is performed exclusively
by the worker's cleanup, and along every trace in which close()'s
setState(CLOSING) write never happens after the worker has already
reached CLOSED, the observed state sequence is monotone over
OPEN → CLOSING → CLOSED.  The unrestricted claim is refuted by the
counterexample trace: the non-atomic isOpen/setState pair of close() lets
a stale CLOSING write follow the worker's CLOSED. -/
theorem state_monotone_amended (tr : List Lbl)
    (hsafe : safeCWrites initSys tr = true) :
    monoFrom initSys.st (obsStates initSys tr) = true ∧
    (∀ (l : Lbl) (s s2 : Sys), stepFn l s = some s2 →
      s.st ≠ CState.CLOSED → s2.st = CState.CLOSED → l = Lbl.wCleanup) := by
  constructor
  · exact monoFrom_of_safe tr initSys (fun h => absurd h (by decide))
      (fun _ => by decide) hsafe
  · exact closed_written_only_by_cleanup

/-- Witness for C5 at a concrete safe trace: close() writes CLOSING while
the state is OPEN, the worker then cleans up and reaches CLOSED. -/
theorem state_monotone_amended_witness :
    safeCWrites initSys
      [Lbl.cRead, Lbl.cWrite, Lbl.wTestExit, Lbl.wCleanup] = true ∧
    monoFrom initSys.st (obsStates initSys
      [Lbl.cRead, Lbl.cWrite, Lbl.wTestExit, Lbl.wCleanup]) = true :=
  ⟨by decide,
   (state_monotone_amended [Lbl.cRead, Lbl.cWrite, Lbl.wTestExit, Lbl.wCleanup]
     (by decide)).1⟩

/-- C5 counterexample: a concrete valid interleaving — close() reads OPEN,
the worker then hits an error, shuts down and reaches CLOSED, and close()
finally performs its stale setState(CLOSING) — gives the observed state
sequence OPEN, OPEN, CLOSING, CLOSING, CLOSED, CLOSING, in which CLOSED
is followed by CLOSING: state progression is not monotone, refuting the
claim as stated. -/
theorem state_monotone_counterexample :
    (runTrace initSys [Lbl.cRead, Lbl.wTestOpen, Lbl.wTickErr, Lbl.wTestExit,
      Lbl.wCleanup, Lbl.cWrite]).isSome = true ∧
    obsStates initSys [Lbl.cRead, Lbl.wTestOpen, Lbl.wTickErr, Lbl.wTestExit,
      Lbl.wCleanup, Lbl.cWrite]
      = [CState.OPEN, CState.OPEN, CState.CLOSING, CState.CLOSING,
         CState.CLOSED, CState.CLOSING] ∧
    monoFrom initSys.st (obsStates initSys [Lbl.cRead, Lbl.wTestOpen,
      Lbl.wTickErr, Lbl.wTestExit, Lbl.wCleanup, Lbl.cWrite]) = false := by
  refine ⟨?_, ?_, ?_⟩ <;> decide

theorem step_closeInv (l : Lbl) (s s2 : Sys) (hstep : stepFn l s = some s2)
    (ha : (s.cpc = CPC.joinWait ∨ s.cpc = CPC.finished) → s.st ≠ CState.OPEN)
    (hb : s.cpc = CPC.finished → s.wpc = WPC.finished)
    (hc : s.socketCloses = if s.wpc = WPC.finished then 1 else 0) :
    ((s2.cpc = CPC.joinWait ∨ s2.cpc = CPC.finished) → s2.st ≠ CState.OPEN) ∧
    (s2.cpc = CPC.finished → s2.wpc = WPC.finished) ∧
    (s2.socketCloses = if s2.wpc = WPC.finished then 1 else 0) := by
  cases l with
  | wTestOpen =>
    simp only [stepFn] at hstep
    split at hstep
    next hcond =>
      rw [Option.some.injEq] at hstep
      subst hstep
      refine ⟨ha, fun h => ?_, ?_⟩
      · have := hb h
        rw [hcond.1] at this
        exact WPC.noConfusion this
      · show s.socketCloses = _
        rw [hcond.1] at hc
        simpa using hc
    next => exact Option.noConfusion hstep
  | wTestExit =>
    simp only [stepFn] at hstep
    split at hstep
    next hcond =>
      rw [Option.some.injEq] at hstep
      subst hstep
      refine ⟨ha, fun h => ?_, ?_⟩
      · have := hb h
        rw [hcond.1] at this
        exact WPC.noConfusion this
      · show s.socketCloses = _
        rw [hcond.1] at hc
        simpa using hc
    next => exact Option.noConfusion hstep
  | wTickOk =>
    simp only [stepFn] at hstep
    split at hstep
    next hcond =>
      rw [Option.some.injEq] at hstep
      subst hstep
      refine ⟨ha, fun h => ?_, ?_⟩
      · have := hb h
        rw [hcond] at this
        exact WPC.noConfusion this
      · show s.socketCloses = _
        rw [hcond] at hc
        simpa using hc
    next => exact Option.noConfusion hstep
  | wTickErr =>
    simp only [stepFn] at hstep
    split at hstep
    next hcond =>
      rw [Option.some.injEq] at hstep
      subst hstep
      refine ⟨fun _ => fun hh => CState.noConfusion hh, fun h => ?_, ?_⟩
      · have := hb h
        rw [hcond] at this
        exact WPC.noConfusion this
      · show s.socketCloses = _
        rw [hcond] at hc
        simpa using hc
    next => exact Option.noConfusion hstep
  | wCleanup =>
    simp only [stepFn] at hstep
    split at hstep
    next hcond =>
      rw [Option.some.injEq] at hstep
      subst hstep
      refine ⟨fun _ => fun hh => CState.noConfusion hh, fun _ => rfl, ?_⟩
      show s.socketCloses + 1 = _
      rw [hcond] at hc
      have hc0 : s.socketCloses = 0 := by simpa using hc
      simp [hc0]
    next => exact Option.noConfusion hstep
  | cRead =>
    simp only [stepFn] at hstep
    split at hstep
    next hcond =>
      rw [Option.some.injEq] at hstep
      subst hstep
      refine ⟨?_, ?_, hc⟩
      · intro h
        show s.st ≠ CState.OPEN
        by_cases hst : s.st = CState.OPEN
        · rw [if_pos hst] at h
          rcases h with h | h <;> exact CPC.noConfusion h
        · exact hst
      · intro h
        show s.wpc = WPC.finished
        by_cases hst : s.st = CState.OPEN
        · rw [if_pos hst] at h
          exact CPC.noConfusion h
        · rw [if_neg hst] at h
          exact CPC.noConfusion h
    next => exact Option.noConfusion hstep
  | cWrite =>
    simp only [stepFn] at hstep
    split at hstep
    next hcond =>
      rw [Option.some.injEq] at hstep
      subst hstep
      exact ⟨fun _ => fun hh => CState.noConfusion hh,
        fun h => CPC.noConfusion h, hc⟩
    next => exact Option.noConfusion hstep
  | cJoin =>
    simp only [stepFn] at hstep
    split at hstep
    next hcond =>
      rw [Option.some.injEq] at hstep
      subst hstep
      exact ⟨fun _ => ha (Or.inl hcond.1), fun _ => hcond.2, hc⟩
    next => exact Option.noConfusion hstep

theorem closeInv_runTrace (tr : List Lbl) : ∀ s : Sys,
    ((s.cpc = CPC.joinWait ∨ s.cpc = CPC.finished) → s.st ≠ CState.OPEN) →
    (s.cpc = CPC.finished → s.wpc = WPC.finished) →
    (s.socketCloses = if s.wpc = WPC.finished then 1 else 0) →
    ∀ s2, runTrace s tr = some s2 →
    ((s2.cpc = CPC.joinWait ∨ s2.cpc = CPC.finished) → s2.st ≠ CState.OPEN) ∧
    (s2.cpc = CPC.finished → s2.wpc = WPC.finished) ∧
    (s2.socketCloses = if s2.wpc = WPC.finished then 1 else 0) := by
  induction tr with
  | nil =>
    intro s ha hb hc s2 hrun
    simp only [runTrace, Option.some.injEq] at hrun
    subst hrun
    exact ⟨ha, hb, hc⟩
  | cons l r ih =>
    intro s ha hb hc s2 hrun
    cases hstep : stepFn l s with
    | none =>
      simp only [runTrace, hstep] at hrun
      exact Option.noConfusion hrun
    | some s1 =>
      simp only [runTrace, hstep] at hrun
      obtain ⟨ha1, hb1, hc1⟩ := step_closeInv l s s1 hstep ha hb hc
      exact ih s1 ha1 hb1 hc1 s2 hrun

/-- C6: in every valid interleaving from the initial state, once close()
has returned (the closing thread reached its final program point),
isOpen() is false, the worker has terminated (so the join has completed),
and the socket has been closed exactly once; a further sequential close()
on the now-quiescent connection changes nothing, so every call after the
first is a no-op. -/
theorem close_postconditions (tr : List Lbl) (s : Sys)
    (hrun : runTrace initSys tr = some s) (hdone : s.cpc = CPC.finished) :
    isOpenState s.st = false ∧ s.wpc = WPC.finished ∧ s.socketCloses = 1 ∧
    closeSeq s = s := by
  obtain ⟨ha, hb, hc⟩ := closeInv_runTrace tr initSys
    (fun h => by rcases h with h | h <;> exact CPC.noConfusion h)
    (fun h => CPC.noConfusion h) rfl s hrun
  have hnopen : s.st ≠ CState.OPEN := ha (Or.inr hdone)
  have hw : s.wpc = WPC.finished := hb hdone
  refine ⟨?_, hw, ?_, ?_⟩
  · unfold isOpenState
    exact decide_eq_false hnopen
  · rw [hc, if_pos hw]
  · unfold closeSeq
    rw [if_neg hnopen]

/-- Witness for C6 at the concrete trace close(); worker shutdown; join:
the final state has a closed socket (exactly one close), a finished
worker, and a no-op second close. -/
theorem close_postconditions_witness :
    isOpenState (Sys.mk CState.CLOSED WPC.finished CPC.finished 1).st
      = false ∧
    (Sys.mk CState.CLOSED WPC.finished CPC.finished 1).socketCloses = 1 ∧
    closeSeq (Sys.mk CState.CLOSED WPC.finished CPC.finished 1)
      = Sys.mk CState.CLOSED WPC.finished CPC.finished 1 := by
  have h := close_postconditions
    [Lbl.cRead, Lbl.cWrite, Lbl.wTestExit, Lbl.wCleanup, Lbl.cJoin]
    (Sys.mk CState.CLOSED WPC.finished CPC.finished 1) (by decide) rfl
  exact ⟨h.1, h.2.2.1, h.2.2.2⟩

end NetworkTCP
